import Mathlib

/-!
Verification of the Caption Assembly Engine of AI-Powered-Media-Captions.

The definitions below are a shallow embedding of the engine's source:

* `src/services/openaiService.ts` — the streaming assembler
  (`addAndSortCaptions` inside `generateCaptionsStream`), the bounded
  chunk dispatcher, and `translateSegments`;
* the server's `smartSplit` / `transcribeSegment` (greedy-accumulator
  line breaker with timestamp interpolation and a global orphan-merge
  pass).

Timestamps are modelled as rationals: in the source a caption stores its
time as an SRT string `HH:MM:SS,mmm` and every comparison goes through
`parseTimestamp`, which yields the number of seconds the rational field
stands for.  String lengths count code points, which agrees with
JavaScript's UTF-16 `length` on the BMP text the system handles.
-/

namespace MediaCaptions

/-- `CaptionSegment` from `src/types.ts`: `{id, startTime, endTime, text}`.
`startTime` / `endTime` hold the parsed value (seconds) of the SRT
timestamp string. -/
structure CaptionSegment where
  id : Nat
  startTime : ℚ
  endTime : ℚ
  text : String
deriving DecidableEq

/-- The comparator `(a, b) => parseTimestamp(a.startTime) - parseTimestamp(b.startTime)`
passed to `Array.prototype.sort`, as the order it induces. -/
def capRel (a b : CaptionSegment) : Prop := a.startTime ≤ b.startTime

instance : DecidableRel capRel := fun a b =>
  (inferInstance : Decidable (a.startTime ≤ b.startTime))

instance : IsTotal CaptionSegment capRel :=
  ⟨fun a b => le_total a.startTime b.startTime⟩

instance : IsTrans CaptionSegment capRel :=
  ⟨fun _ _ _ h₁ h₂ => le_trans h₁ h₂⟩

/-- `allCaptions.sort((a, b) => parseTimestamp(a.startTime) - parseTimestamp(b.startTime))`.
`Array.prototype.sort` is stable (ES2019), so it is modelled by a stable
insertion sort: an element is placed before the first element it is
strictly below, ties keeping arrival order. -/
def sortCaptions (l : List CaptionSegment) : List CaptionSegment :=
  List.insertionSort capRel l

/-- The 0.5 s boundary-duplicate tolerance of the dedup pass. -/
def overlapTolerance : ℚ := 1/2

/-- The forward dedup loop of `addAndSortCaptions`, after its first kept
element: `cap` is pushed exactly when
`parseTimestamp(cap.startTime) >= parseTimestamp(last.endTime) - 0.5`,
where `last` is the last element pushed so far; otherwise it is dropped. -/
def dedupFrom (last : CaptionSegment) : List CaptionSegment → List CaptionSegment
  | [] => []
  | cap :: rest =>
    if last.endTime - overlapTolerance ≤ cap.startTime then
      cap :: dedupFrom cap rest
    else
      dedupFrom last rest

/-- The whole dedup loop: with `uniqueCaptions` empty there is no `last`,
so the first caption is always pushed. -/
def dedupCaptions : List CaptionSegment → List CaptionSegment
  | [] => []
  | cap :: rest => cap :: dedupFrom cap rest

/-- `uniqueCaptions.map((c, i) => ({ ...c, id: i }))` starting at `i`. -/
def renumberFrom (i : Nat) : List CaptionSegment → List CaptionSegment
  | [] => []
  | cap :: rest => { cap with id := i } :: renumberFrom (i + 1) rest

/-- Reassign ids `0..N-1` in list order (`StreamAssembler` emission). -/
def renumber (l : List CaptionSegment) : List CaptionSegment :=
  renumberFrom 0 l

/-- `addAndSortCaptions` of `src/services/openaiService.ts` (lines 185-203):
push the new segments onto the accumulated list, sort by start time,
dedup with the 0.5 s tolerance, renumber, and emit.  The first component
is the mutated `allCaptions` array, the second the emitted snapshot. -/
def addAndSortCaptions (allCaptions newSegments : List CaptionSegment) :
    List CaptionSegment × List CaptionSegment :=
  let sortedAll := sortCaptions (allCaptions ++ newSegments)
  (sortedAll, renumber (dedupCaptions sortedAll))

end MediaCaptions

namespace MediaCaptions

/-- The dedup invariant relation between consecutive emitted lines. -/
def dedupOk (a b : CaptionSegment) : Prop :=
  a.endTime - overlapTolerance ≤ b.startTime

/-- Field-level agreement: same content up to the reassigned `id`. -/
def sameLine (c o : CaptionSegment) : Prop :=
  c.startTime = o.startTime ∧ c.endTime = o.endTime ∧ c.text = o.text

theorem dedupFrom_chain (rest : List CaptionSegment) :
    ∀ cap : CaptionSegment, List.Chain' dedupOk (cap :: dedupFrom cap rest) := by
  induction rest with
  | nil => intro cap; simp [dedupFrom]
  | cons x rs ih =>
    intro cap
    by_cases h : cap.endTime - overlapTolerance ≤ x.startTime
    · rw [dedupFrom, if_pos h, List.chain'_cons]
      exact ⟨h, ih x⟩
    · rw [dedupFrom, if_neg h]
      exact ih cap

theorem dedupFrom_subset (rest : List CaptionSegment) :
    ∀ (last : CaptionSegment), ∀ c ∈ dedupFrom last rest, c ∈ rest := by
  induction rest with
  | nil => intro last c hc; simp [dedupFrom] at hc
  | cons x rs ih =>
    intro last c hc
    by_cases h : last.endTime - overlapTolerance ≤ x.startTime
    · rw [dedupFrom, if_pos h, List.mem_cons] at hc
      rcases hc with hc | hc
      · exact hc ▸ List.mem_cons_self _ _
      · exact List.mem_cons_of_mem _ (ih x c hc)
    · rw [dedupFrom, if_neg h] at hc
      exact List.mem_cons_of_mem _ (ih last c hc)

theorem dedupCaptions_subset (l : List CaptionSegment) :
    ∀ c ∈ dedupCaptions l, c ∈ l := by
  cases l with
  | nil => intro c hc; simp [dedupCaptions] at hc
  | cons x rs =>
    intro c hc
    rw [dedupCaptions, List.mem_cons] at hc
    rcases hc with hc | hc
    · exact hc ▸ List.mem_cons_self _ _
    · exact List.mem_cons_of_mem _ (dedupFrom_subset rs x c hc)

theorem dedupCaptions_chain (l : List CaptionSegment) :
    List.Chain' dedupOk (dedupCaptions l) := by
  cases l with
  | nil => simp [dedupCaptions]
  | cons x rs => exact dedupFrom_chain rs x

theorem renumberFrom_sameLine (l : List CaptionSegment) :
    ∀ i, ∀ c ∈ renumberFrom i l, ∃ o ∈ l, sameLine c o := by
  induction l with
  | nil => intro i c hc; simp [renumberFrom] at hc
  | cons x rs ih =>
    intro i c hc
    rw [renumberFrom, List.mem_cons] at hc
    rcases hc with hc | hc
    · exact ⟨x, List.mem_cons_self _ _, by simp [hc, sameLine]⟩
    · obtain ⟨o, ho, hline⟩ := ih (i + 1) c hc
      exact ⟨o, List.mem_cons_of_mem _ ho, hline⟩

theorem renumberFrom_chain {l : List CaptionSegment}
    (h : List.Chain' dedupOk l) : ∀ i, List.Chain' dedupOk (renumberFrom i l) := by
  induction l with
  | nil => intro i; simp [renumberFrom]
  | cons x rs ih =>
    intro i
    cases rs with
    | nil => simp [renumberFrom]
    | cons y ys =>
      rw [List.chain'_cons] at h
      have := ih h.2 (i + 1)
      rw [renumberFrom, renumberFrom, List.chain'_cons]
      rw [renumberFrom] at this
      exact ⟨h.1, this⟩

/-- Claim C1 — Dedup invariant: in every snapshot `addAndSortCaptions`
emits, every pair of consecutive lines `a` then `b` satisfies
`b.startTime >= a.endTime - 0.5`; every emitted line carries the
start/end/text of one ingested line unchanged (boundary duplicates are
dropped whole, never textually merged); and the dedup loop drops a line
exactly when its start time is below the previously kept line's end time
minus the 0.5 s tolerance. -/
theorem dedup_invariant (allCaptions newSegments : List CaptionSegment) :
    List.Chain' dedupOk (addAndSortCaptions allCaptions newSegments).2
    ∧ (∀ c ∈ (addAndSortCaptions allCaptions newSegments).2,
        ∃ o ∈ allCaptions ++ newSegments, sameLine c o)
    ∧ (∀ (last cap : CaptionSegment) (rest : List CaptionSegment),
        dedupFrom last (cap :: rest) =
          if last.endTime - overlapTolerance ≤ cap.startTime then
            cap :: dedupFrom cap rest
          else
            dedupFrom last rest) := by
  refine ⟨?_, ?_, ?_⟩
  · exact renumberFrom_chain
      (dedupCaptions_chain (sortCaptions (allCaptions ++ newSegments))) 0
  · intro c hc
    obtain ⟨o, ho, hline⟩ := renumberFrom_sameLine _ 0 c hc
    have ho2 : o ∈ sortCaptions (allCaptions ++ newSegments) :=
      dedupCaptions_subset _ o ho
    have hperm := List.perm_insertionSort capRel (allCaptions ++ newSegments)
    exact ⟨o, hperm.mem_iff.mp ho2, hline⟩
  · intro last cap rest
    rfl

end MediaCaptions

namespace MediaCaptions

theorem dedupFrom_sublist (rest : List CaptionSegment) :
    ∀ last : CaptionSegment, List.Sublist (dedupFrom last rest) rest := by
  induction rest with
  | nil => intro last; simp [dedupFrom]
  | cons x rs ih =>
    intro last
    by_cases h : last.endTime - overlapTolerance ≤ x.startTime
    · rw [dedupFrom, if_pos h]
      exact List.Sublist.cons₂ x (ih x)
    · rw [dedupFrom, if_neg h]
      exact List.Sublist.cons x (ih last)

theorem dedupCaptions_sublist (l : List CaptionSegment) :
    List.Sublist (dedupCaptions l) l := by
  cases l with
  | nil => simp [dedupCaptions]
  | cons x rs => exact List.Sublist.cons₂ x (dedupFrom_sublist rs x)

theorem renumberFrom_map_startTime (l : List CaptionSegment) :
    ∀ i, (renumberFrom i l).map CaptionSegment.startTime
      = l.map CaptionSegment.startTime := by
  induction l with
  | nil => intro i; rfl
  | cons x rs ih =>
    intro i
    simp [renumberFrom, ih (i + 1)]

theorem renumberFrom_map_id (l : List CaptionSegment) :
    ∀ i, (renumberFrom i l).map CaptionSegment.id = List.range' i l.length := by
  induction l with
  | nil => intro i; rfl
  | cons x rs ih =>
    intro i
    simp [renumberFrom, ih (i + 1), List.range'_succ]

theorem renumberFrom_length (l : List CaptionSegment) :
    ∀ i, (renumberFrom i l).length = l.length := by
  induction l with
  | nil => intro i; rfl
  | cons x rs ih =>
    intro i
    simp [renumberFrom, ih (i + 1)]

/-- Claim C3 — Snapshot well-formedness: every snapshot emitted by
`addAndSortCaptions` is sorted ascending by `startTime`, and the `id`
fields of its `N` elements are exactly `0, 1, ..., N-1` in list order. -/
theorem snapshot_wellformed (allCaptions newSegments : List CaptionSegment) :
    List.Sorted (· ≤ ·)
      ((addAndSortCaptions allCaptions newSegments).2.map CaptionSegment.startTime)
    ∧ (addAndSortCaptions allCaptions newSegments).2.map CaptionSegment.id
        = List.range (addAndSortCaptions allCaptions newSegments).2.length := by
  constructor
  · have hsorted : List.Sorted capRel (sortCaptions (allCaptions ++ newSegments)) :=
      List.sorted_insertionSort capRel _
    have hmap : List.Pairwise (fun a b : CaptionSegment => a.startTime ≤ b.startTime)
        (dedupCaptions (sortCaptions (allCaptions ++ newSegments))) :=
      List.Pairwise.sublist (dedupCaptions_sublist _) hsorted
    show List.Sorted (· ≤ ·)
      ((renumber (dedupCaptions (sortCaptions (allCaptions ++ newSegments)))).map
        CaptionSegment.startTime)
    rw [renumber, renumberFrom_map_startTime]
    exact List.pairwise_map.mpr hmap
  · show (renumber (dedupCaptions (sortCaptions (allCaptions ++ newSegments)))).map
        CaptionSegment.id
      = List.range (renumber (dedupCaptions (sortCaptions (allCaptions ++ newSegments)))).length
    rw [renumber, renumberFrom_map_id, renumberFrom_length, List.range_eq_range']

/-- The mutation one `ingest` call performs on the accumulated
`allCaptions` array: append the chunk's lines and sort (stably) by start
time.  The dedup / renumber pass is recomputed on the whole array at each
emission and does not feed back into the accumulated state. -/
def ingest (state newSegments : List CaptionSegment) : List CaptionSegment :=
  (addAndSortCaptions state newSegments).1

/-- The accumulated array after ingesting a sequence of chunk results in
the given completion order. -/
def runIngests (chunkLists : List (List CaptionSegment)) : List CaptionSegment :=
  chunkLists.foldl ingest []

/-- The snapshot emitted by the last `ingest` of the run (for an empty
run, the empty list). -/
def finalSnapshot (chunkLists : List (List CaptionSegment)) : List CaptionSegment :=
  renumber (dedupCaptions (runIngests chunkLists))

theorem foldl_ingest_perm (chunkLists : List (List CaptionSegment)) :
    ∀ s, List.Perm (List.foldl ingest s chunkLists) (s ++ chunkLists.flatten) := by
  induction chunkLists with
  | nil => intro s; simp
  | cons c rest ih =>
    intro s
    have h1 : List.Perm (List.foldl ingest (ingest s c) rest) (ingest s c ++ rest.flatten) :=
      ih _
    have h2 : List.Perm (ingest s c) (s ++ c) := List.perm_insertionSort capRel _
    have h3 : List.Perm (ingest s c ++ rest.flatten) ((s ++ c) ++ rest.flatten) :=
      h2.append_right _
    have h4 : (s ++ c) ++ rest.flatten = s ++ (c :: rest).flatten := by simp
    exact (h1.trans h3).trans (h4 ▸ List.Perm.refl _)

theorem runIngests_perm (chunkLists : List (List CaptionSegment)) :
    List.Perm (runIngests chunkLists) chunkLists.flatten := by
  simpa [runIngests] using foldl_ingest_perm chunkLists []

theorem foldl_ingest_sorted (chunkLists : List (List CaptionSegment)) :
    ∀ s, List.Sorted capRel s → List.Sorted capRel (List.foldl ingest s chunkLists) := by
  induction chunkLists with
  | nil => intro s hs; exact hs
  | cons c rest ih =>
    intro s _
    exact ih (ingest s c) (List.sorted_insertionSort capRel _)

/-- Strict version of the sort order, used for uniqueness of the sorted
list when all start times are distinct. -/
def capLT (a b : CaptionSegment) : Prop := a.startTime < b.startTime

instance : IsAntisymm CaptionSegment capLT :=
  ⟨fun _ _ h₁ h₂ => (lt_asymm h₁ h₂).elim⟩

theorem sorted_capLT_of_distinct {L : List CaptionSegment}
    (hs : List.Sorted capRel L)
    (hd : (L.map CaptionSegment.startTime).Pairwise (· ≠ ·)) :
    List.Sorted capLT L := by
  have hd2 : List.Pairwise (fun a b : CaptionSegment => a.startTime ≠ b.startTime) L :=
    List.pairwise_map.mp hd
  exact (List.Pairwise.and hs hd2).imp fun h => lt_of_le_of_ne h.1 h.2

/-- Claim C2 (amended) — Ingest order-independence when no two ingested
lines share a parsed start time: for any two completion orders of the
same collection of chunk results, the accumulated sorted list — and with
it the final emitted sorted/deduped/renumbered snapshot — is the same. -/
theorem ingest_order_independent (l₁ l₂ : List (List CaptionSegment))
    (hperm : List.Perm l₁ l₂)
    (hdist : (l₁.flatten.map CaptionSegment.startTime).Pairwise (· ≠ ·)) :
    finalSnapshot l₁ = finalSnapshot l₂ := by
  have p1 := runIngests_perm l₁
  have p2 := runIngests_perm l₂
  have pj : List.Perm l₁.flatten l₂.flatten := hperm.flatten
  have hne : ∀ {x y : ℚ}, x ≠ y → y ≠ x := fun h => h.symm
  have hd1 : ((runIngests l₁).map CaptionSegment.startTime).Pairwise (· ≠ ·) :=
    ((p1.map CaptionSegment.startTime).pairwise_iff hne).mpr hdist
  have hd2 : ((runIngests l₂).map CaptionSegment.startTime).Pairwise (· ≠ ·) :=
    ((p2.map CaptionSegment.startTime).pairwise_iff hne).mpr
      (((pj.map CaptionSegment.startTime).pairwise_iff hne).mp hdist)
  have s1 : List.Sorted capLT (runIngests l₁) :=
    sorted_capLT_of_distinct (foldl_ingest_sorted l₁ [] List.sorted_nil) hd1
  have s2 : List.Sorted capLT (runIngests l₂) :=
    sorted_capLT_of_distinct (foldl_ingest_sorted l₂ [] List.sorted_nil) hd2
  have heq : runIngests l₁ = runIngests l₂ :=
    List.eq_of_perm_of_sorted (p1.trans (pj.trans p2.symm)) s1 s2
  unfold finalSnapshot
  rw [heq]

/-- Witness for the amended C2: two chunk results with distinct start
times (1 s and 2 s) give the same final snapshot in either completion
order. -/
theorem ingest_order_independent_witness :
    finalSnapshot [[⟨0, 1, 1, "A"⟩], [⟨0, 2, 2, "B"⟩]]
      = finalSnapshot [[⟨0, 2, 2, "B"⟩], [⟨0, 1, 1, "A"⟩]] :=
  ingest_order_independent _ _ (List.Perm.swap _ _ _)
    (by norm_num [List.pairwise_cons])

def capA : CaptionSegment := ⟨0, 1, 1, "A"⟩

def capB : CaptionSegment := ⟨0, 1, 1, "B"⟩

/-- Claim C2 (counterexample) — two chunk results whose lines share the
same start time (1 s): ingesting them in the two possible completion
orders yields different final snapshots (the stable sort keeps arrival
order among equal start times, and both lines survive dedup), so the
final emitted list is not a function of the multiset of ingested lines
alone. -/
theorem ingest_order_counterexample :
    List.Perm [[capA], [capB]] [[capB], [capA]]
    ∧ (finalSnapshot [[capA], [capB]]).map CaptionSegment.text = ["A", "B"]
    ∧ (finalSnapshot [[capB], [capA]]).map CaptionSegment.text = ["B", "A"]
    ∧ finalSnapshot [[capA], [capB]] ≠ finalSnapshot [[capB], [capA]] := by
  have h1 : (finalSnapshot [[capA], [capB]]).map CaptionSegment.text = ["A", "B"] := by
    norm_num [finalSnapshot, runIngests, ingest, addAndSortCaptions, sortCaptions,
      List.insertionSort, List.orderedInsert, capRel, dedupCaptions, dedupFrom,
      overlapTolerance, renumber, renumberFrom, capA, capB]
  have h2 : (finalSnapshot [[capB], [capA]]).map CaptionSegment.text = ["B", "A"] := by
    norm_num [finalSnapshot, runIngests, ingest, addAndSortCaptions, sortCaptions,
      List.insertionSort, List.orderedInsert, capRel, dedupCaptions, dedupFrom,
      overlapTolerance, renumber, renumberFrom, capA, capB]
  refine ⟨List.Perm.swap _ _ _, h1, h2, fun heq => ?_⟩
  rw [heq, h2] at h1
  exact absurd h1 (by decide)

end MediaCaptions

namespace MediaCaptions

/-- `isChinese` of the server: `/[一-龥]/.test(str)`. -/
def isChinese (s : String) : Bool :=
  s.data.any fun c => 0x4e00 ≤ c.toNat && c.toNat ≤ 0x9fa5

/-- A raw STT segment / produced caption line `{start, end, text}` of the
server pipeline (`stop` models the JS `end` field, a Lean keyword). -/
structure RawSegment where
  start : ℚ
  stop : ℚ
  text : String
deriving DecidableEq

/-- `text.split(/\s+/).filter(w => w.length > 0)`: whitespace-delimited
words, empties removed. -/
def tokenizeSpace (s : String) : List String :=
  ((s.data.splitOnP fun c => c.isWhitespace).filter fun w => w ≠ []).map String.mk

/-- The clause/sentence punctuation class `[。！？，、；：,.;:—]` of the
dense-script tokenizer. -/
def cnPunct (c : Char) : Bool :=
  c ∈ ['。', '！', '？', '，', '、', '；', '：', ',', '.', ';', ':', '—']

/-- JavaScript `trim()` on the model: strip whitespace from both ends. -/
def trimStr (s : String) : String :=
  String.mk (((s.data.dropWhile Char.isWhitespace).reverse.dropWhile
    Char.isWhitespace).reverse)

/-- `text.split(/([。！？，、；：,.;:—])/).filter(s => s.length > 0)`:
maximal runs of non-punctuation characters interleaved with the single
punctuation marks themselves, empties removed.  The first argument is the
reversed run being accumulated. -/
def cnSplitAux : List Char → List Char → List String
  | acc, [] => if acc.isEmpty then [] else [String.mk acc.reverse]
  | acc, c :: rest =>
    if cnPunct c then
      (if acc.isEmpty then [] else [String.mk acc.reverse])
        ++ String.mk [c] :: cnSplitAux [] rest
    else
      cnSplitAux (c :: acc) rest

/-- The dense-script glue pass: a chunk containing punctuation is
appended to the previous kept token when one exists, any other chunk is
trimmed and pushed when nonempty.  The accumulator is kept reversed. -/
def cnMergeStep : List String → String → List String
  | last :: rest, chunk =>
    if chunk.data.any cnPunct then
      (last ++ chunk) :: rest
    else if trimStr chunk = "" then last :: rest else trimStr chunk :: last :: rest
  | [], chunk => if trimStr chunk = "" then [] else [trimStr chunk]

/-- Dense-script tokenization of `smartSplit` step 1. -/
def tokenizeChinese (s : String) : List String :=
  ((cnSplitAux [] s.data).foldl cnMergeStep []).reverse

/-- Sentence-terminal punctuation `[。！？.?!]` tested at the end of the
buffer. -/
def isTerminalPunct (c : Char) : Bool :=
  c ∈ ['。', '！', '？', '.', '?', '!']

/-- `/[。！？.?!]$/.test(s)`. -/
def endsWithTerminal (s : String) : Bool :=
  match s.data.getLast? with
  | some c => isTerminalPunct c
  | none => false

/-- `CN_MAX` — dense-script soft line cap. -/
def CN_MAX : ℕ := 12

/-- `CN_IDEAL` — dense-script ideal flush length. -/
def CN_IDEAL : ℕ := 10

/-- `MIN_MERGE_LEN` — a buffer shorter than this is force-extended. -/
def MIN_MERGE_LEN : ℕ := 10

/-- One iteration of `smartSplit` step 2's greedy accumulator, acting on
the pair (finalLines so far, buffer). -/
def accumStep (isCn : Bool) (maxLineLen idealLen : ℕ)
    (st : List String × String) (current : String) : List String × String :=
  let lines := st.1
  let buffer := st.2
  if buffer = "" then (lines, current)
  else
    let separator : String := if isCn then "" else " "
    let predictedLen := buffer.length + separator.length + current.length
    if maxLineLen < predictedLen then (lines ++ [buffer], current)
    else if buffer.length < MIN_MERGE_LEN then (lines, buffer ++ separator ++ current)
    else if endsWithTerminal buffer ∨ idealLen ≤ buffer.length then
      (lines ++ [buffer], current)
    else (lines, buffer ++ separator ++ current)

/-- The greedy accumulator over a token list, flushing a nonempty final
buffer at end of input. -/
def accumulate (isCn : Bool) (maxLineLen idealLen : ℕ) (chunks : List String) :
    List String :=
  let st := chunks.foldl (accumStep isCn maxLineLen idealLen) ([], "")
  if st.2 = "" then st.1 else st.1 ++ [st.2]

/-- The line texts `smartSplit` produces for one segment, before
timestamp assignment: classify the script, pick the thresholds
(`CN_MAX`/`CN_IDEAL` for dense script, `maxChars` and
`Math.floor(maxChars * 0.75)` otherwise), tokenize, accumulate. -/
def smartSplitSegLines (maxChars : ℕ) (text : String) : List String :=
  let isCn := isChinese text
  let maxLineLen := if isCn then CN_MAX else maxChars
  let idealLen := if isCn then CN_IDEAL else maxChars * 3 / 4
  let chunks := if isCn then tokenizeChinese text else tokenizeSpace text
  accumulate isCn maxLineLen idealLen chunks

/-- `smartSplit` step 3: proportional timestamp interpolation.  Each line
gets `duration * (len / totalLen)` (or an equal share when `totalLen` is
zero); the last line's end is forced to exactly the segment's end. -/
def assignTimesAux (duration : ℚ) (totalLen count : ℕ) (segStop : ℚ) :
    ℚ → List String → List RawSegment
  | _, [] => []
  | running, [line] => [⟨running, segStop, line⟩]
  | running, line :: rest =>
    let ratio : ℚ := if 0 < totalLen then (line.length : ℚ) / totalLen else 1 / count
    let lineEnd := running + duration * ratio
    ⟨running, lineEnd, line⟩ :: assignTimesAux duration totalLen count segStop lineEnd rest

/-- Timestamp assignment for one segment's produced lines. -/
def assignTimes (segStart segStop : ℚ) (lines : List String) : List RawSegment :=
  assignTimesAux (segStop - segStart) ((lines.map String.length).sum) lines.length
    segStop segStart lines

/-- The caption-line candidates `smartSplit` produces for one raw
segment (pre global merge). -/
def smartSplitSeg (maxChars : ℕ) (seg : RawSegment) : List RawSegment :=
  assignTimes seg.start seg.stop (smartSplitSegLines maxChars seg.text)

end MediaCaptions

namespace MediaCaptions

/-- The offset correction and `trim()` that `transcribeSegment` applies to
each raw Whisper segment before handing it to `smartSplit`:
`{ start: seg.start + startTimeOffset, end: seg.end + startTimeOffset, text: seg.text.trim() }`. -/
def offsetSeg (startTimeOffset : ℚ) (seg : RawSegment) : RawSegment :=
  ⟨seg.start + startTimeOffset, seg.stop + startTimeOffset, trimStr seg.text⟩

theorem assignTimesAux_ne_nil (duration : ℚ) (totalLen count : ℕ) (segStop : ℚ)
    (lines : List String) :
    ∀ running, lines ≠ [] → assignTimesAux duration totalLen count segStop running lines ≠ [] := by
  cases lines with
  | nil => intro running h; exact absurd rfl h
  | cons l rest =>
    intro running _
    cases rest with
    | nil => simp [assignTimesAux]
    | cons l2 rest2 => simp [assignTimesAux]

theorem assignTimesAux_head (duration : ℚ) (totalLen count : ℕ) (segStop : ℚ)
    (lines : List String) :
    ∀ running, lines ≠ [] →
      (assignTimesAux duration totalLen count segStop running lines).head?.map
        RawSegment.start = some running := by
  cases lines with
  | nil => intro running h; exact absurd rfl h
  | cons l rest =>
    intro running _
    cases rest with
    | nil => simp [assignTimesAux]
    | cons l2 rest2 => simp [assignTimesAux]

theorem getLast_cons_ne {a : RawSegment} {L : List RawSegment} (h : L ≠ []) :
    (a :: L).getLast? = L.getLast? := by
  cases L with
  | nil => exact absurd rfl h
  | cons b t => simp [List.getLast?_cons]

theorem assignTimesAux_getLast (duration : ℚ) (totalLen count : ℕ) (segStop : ℚ)
    (lines : List String) :
    ∀ running, lines ≠ [] →
      (assignTimesAux duration totalLen count segStop running lines).getLast?.map
        RawSegment.stop = some segStop := by
  induction lines with
  | nil => intro running h; exact absurd rfl h
  | cons l rest ih =>
    intro running _
    cases rest with
    | nil => simp [assignTimesAux]
    | cons l2 rest2 =>
      have hne : l2 :: rest2 ≠ [] := by simp
      have hstep : assignTimesAux duration totalLen count segStop running (l :: l2 :: rest2)
          = ⟨running,
              running + duration *
                (if 0 < totalLen then (l.length : ℚ) / totalLen else 1 / count), l⟩
            :: assignTimesAux duration totalLen count segStop
              (running + duration *
                (if 0 < totalLen then (l.length : ℚ) / totalLen else 1 / count))
              (l2 :: rest2) := rfl
      rw [hstep, getLast_cons_ne (assignTimesAux_ne_nil _ _ _ _ _ _ hne)]
      exact ih _ hne

/-- Claim C4 — Timestamp conservation: for a raw STT segment with
`end >= start` that the line breaker splits into one or more lines, the
first produced line's `startTime` is exactly the segment's `start` plus
the chunk's `startOffset`, and the last produced line's `endTime` is
exactly the segment's `end` plus the `startOffset`.  The statement covers
both the space-delimited and the dense-script path, which share the
timestamp-assignment loop of `smartSplit`. -/
theorem timestamp_conservation (maxChars : ℕ) (startTimeOffset : ℚ) (seg : RawSegment)
    (hse : seg.start ≤ seg.stop)
    (hne : smartSplitSeg maxChars (offsetSeg startTimeOffset seg) ≠ []) :
    (smartSplitSeg maxChars (offsetSeg startTimeOffset seg)).head?.map RawSegment.start
        = some (seg.start + startTimeOffset)
    ∧ (smartSplitSeg maxChars (offsetSeg startTimeOffset seg)).getLast?.map RawSegment.stop
        = some (seg.stop + startTimeOffset) := by
  have hlines : smartSplitSegLines maxChars (offsetSeg startTimeOffset seg).text ≠ [] := by
    intro hempty
    apply hne
    unfold smartSplitSeg assignTimes
    rw [hempty]
    rfl
  constructor
  · exact assignTimesAux_head _ _ _ _ _ _ hlines
  · exact assignTimesAux_getLast _ _ _ _ _ _ hlines

/-- Concrete segment from the spec's worked example, used as witness
input. -/
def exampleSeg : RawSegment := ⟨0, 4, "hello world this is a test"⟩

/-- Witness for C4: the example segment, shifted by a 7 s chunk offset,
yields lines starting at `0 + 7` and ending at exactly `4 + 7`. -/
theorem timestamp_conservation_witness :
    (smartSplitSeg 42 (offsetSeg 7 exampleSeg)).head?.map RawSegment.start
        = some (exampleSeg.start + 7)
    ∧ (smartSplitSeg 42 (offsetSeg 7 exampleSeg)).getLast?.map RawSegment.stop
        = some (exampleSeg.stop + 7) :=
  timestamp_conservation 42 7 exampleSeg (by norm_num [exampleSeg]) (by decide)

end MediaCaptions

namespace MediaCaptions

theorem accum_foldl_inv (isCn : Bool) (maxLineLen idealLen : ℕ)
    (allChunks : List String) :
    ∀ (chunks : List String), (∀ c ∈ chunks, c ∈ allChunks) →
    ∀ (lines : List String) (buffer : String),
      (∀ l ∈ lines, l.length ≤ maxLineLen ∨ l ∈ allChunks) →
      (buffer = "" ∨ buffer.length ≤ maxLineLen ∨ buffer ∈ allChunks) →
      (∀ l ∈ (List.foldl (accumStep isCn maxLineLen idealLen) (lines, buffer) chunks).1,
          l.length ≤ maxLineLen ∨ l ∈ allChunks)
      ∧ ((List.foldl (accumStep isCn maxLineLen idealLen) (lines, buffer) chunks).2 = ""
          ∨ (List.foldl (accumStep isCn maxLineLen idealLen) (lines, buffer) chunks).2.length
              ≤ maxLineLen
          ∨ (List.foldl (accumStep isCn maxLineLen idealLen) (lines, buffer) chunks).2
              ∈ allChunks) := by
  intro chunks
  induction chunks with
  | nil =>
    intro _ lines buffer hlines hbuf
    exact ⟨hlines, hbuf⟩
  | cons current rest ih =>
    intro hsub lines buffer hlines hbuf
    have hcur : current ∈ allChunks := hsub current (List.mem_cons_self _ _)
    have hsub2 : ∀ c ∈ rest, c ∈ allChunks := fun c hc =>
      hsub c (List.mem_cons_of_mem _ hc)
    have hstep : List.foldl (accumStep isCn maxLineLen idealLen) (lines, buffer)
        (current :: rest)
        = List.foldl (accumStep isCn maxLineLen idealLen)
            (accumStep isCn maxLineLen idealLen (lines, buffer) current) rest := rfl
    rw [hstep]
    set separator : String := if isCn then "" else " " with hsep
    by_cases hb : buffer = ""
    · have : accumStep isCn maxLineLen idealLen (lines, buffer) current
          = (lines, current) := by
        simp [accumStep, hb]
      rw [this]
      exact ih hsub2 lines current hlines (Or.inr (Or.inr hcur))
    · have hflushed : ∀ l ∈ lines ++ [buffer], l.length ≤ maxLineLen ∨ l ∈ allChunks := by
        intro l hl
        rcases List.mem_append.mp hl with hl | hl
        · exact hlines l hl
        · have : l = buffer := List.mem_singleton.mp hl
          subst this
          exact hbuf.resolve_left hb
      have happlen : (buffer ++ separator ++ current).length
          = buffer.length + separator.length + current.length := by
        rw [String.length_append, String.length_append]
      by_cases hmax : maxLineLen < buffer.length + separator.length + current.length
      · have : accumStep isCn maxLineLen idealLen (lines, buffer) current
            = (lines ++ [buffer], current) := by
          simp [accumStep, hb, ← hsep, hmax]
        rw [this]
        exact ih hsub2 _ current hflushed (Or.inr (Or.inr hcur))
      · have hle : (buffer ++ separator ++ current).length ≤ maxLineLen := by
          rw [happlen]
          exact Nat.le_of_not_lt hmax
        by_cases hmin : buffer.length < MIN_MERGE_LEN
        · have : accumStep isCn maxLineLen idealLen (lines, buffer) current
              = (lines, buffer ++ separator ++ current) := by
            simp [accumStep, hb, ← hsep, hmax, hmin]
          rw [this]
          exact ih hsub2 lines _ hlines (Or.inr (Or.inl hle))
        · by_cases hterm : endsWithTerminal buffer ∨ idealLen ≤ buffer.length
          · have : accumStep isCn maxLineLen idealLen (lines, buffer) current
                = (lines ++ [buffer], current) := by
              simp [accumStep, hb, ← hsep, hmax, hmin, hterm]
            rw [this]
            exact ih hsub2 _ current hflushed (Or.inr (Or.inr hcur))
          · have : accumStep isCn maxLineLen idealLen (lines, buffer) current
                = (lines, buffer ++ separator ++ current) := by
              simp [accumStep, hb, ← hsep, hmax, hmin, hterm]
            rw [this]
            exact ih hsub2 lines _ hlines (Or.inr (Or.inl hle))

theorem accumulate_line_bound (isCn : Bool) (maxLineLen idealLen : ℕ)
    (chunks : List String) :
    ∀ line ∈ accumulate isCn maxLineLen idealLen chunks,
      line.length ≤ maxLineLen ∨ line ∈ chunks := by
  intro line hline
  have hinv := accum_foldl_inv isCn maxLineLen idealLen chunks chunks
    (fun c hc => hc) [] "" (by intro l hl; simp at hl) (Or.inl rfl)
  unfold accumulate at hline
  by_cases hend : (List.foldl (accumStep isCn maxLineLen idealLen) ([], "") chunks).2 = ""
  · rw [if_pos hend] at hline
    exact hinv.1 line hline
  · rw [if_neg hend] at hline
    rcases List.mem_append.mp hline with hl | hl
    · exact hinv.1 line hl
    · have : line = (List.foldl (accumStep isCn maxLineLen idealLen) ([], "") chunks).2 :=
        List.mem_singleton.mp hl
      subst this
      exact hinv.2.resolve_left hend

/-- Claim C5 (amended) — Length bound for the space-delimited path: every
line produced by the greedy accumulator (pre global merge) either has at
most `maxChars` characters (`MAX_LEN = maxChars`, 42 at the server call
site) or is verbatim a single whitespace-delimited atomic token of the
input (necessarily longer than `maxChars`); over-long atomic tokens are
emitted whole — the greedy line breaker has no `ABSOLUTE_MAX` hard cap
and never splits inside a token. -/
theorem length_bound_space (maxChars : ℕ) (text : String)
    (h : isChinese text = false)
    (line : String) (hmem : line ∈ smartSplitSegLines maxChars text) :
    line.length ≤ maxChars ∨ line ∈ tokenizeSpace text := by
  unfold smartSplitSegLines at hmem
  rw [h] at hmem
  simp only [Bool.false_eq_true, if_false] at hmem
  exact accumulate_line_bound false maxChars (maxChars * 3 / 4) (tokenizeSpace text)
    line hmem

/-- Witness for the amended C5 at `maxChars = 16` on `"hello world"`:
the single produced line is within the bound. -/
theorem length_bound_space_witness :
    ("hello world").length ≤ 16 ∨ "hello world" ∈ tokenizeSpace "hello world" :=
  length_bound_space 16 "hello world" (by decide) "hello world" (by decide)

/-- A single atomic token of 43 characters, one more than the server's
42-character cap. -/
def longToken : String := "aaaaaaaaaaaaaaaaaaaaaaaaaaaaaaaaaaaaaaaaaaa"

/-- A raw segment whose text is that single token. -/
def longSeg : RawSegment := ⟨0, 4, longToken⟩

/-- Claim C5 (counterexample) — a space-delimited segment made of one
43-character atomic token: the line breaker emits it whole as a single
line of 43 > 42 characters.  Whatever value `ABSOLUTE_MAX` is given, the
claim as stated fails here: if `ABSOLUTE_MAX ≥ 43` the emitted line
exceeds `MAX_LEN` without coming from a token longer than
`ABSOLUTE_MAX`; if `ABSOLUTE_MAX < 43` the token should have been
hard-split by character count, yet it is emitted unsplit. -/
theorem length_bound_counterexample :
    isChinese longToken = false
    ∧ tokenizeSpace longToken = [longToken]
    ∧ (smartSplitSeg 42 longSeg).map RawSegment.text = [longToken]
    ∧ 42 < longToken.length :=
  ⟨by decide, by decide, by decide, by decide⟩

end MediaCaptions

namespace MediaCaptions

/-- Modelled from the claim's wording of the decision order: process each
token by priority (a) empty buffer is seeded; (b) buffer + separator +
token exceeding `MAX_LEN` flushes the buffer and seeds with the token;
(c) a buffer shorter than `MIN_MERGE_LEN` force-appends the token;
(d) a buffer ending in sentence-terminal punctuation or of length at
least `IDEAL_LEN` is flushed and the token seeds a new buffer;
(e) otherwise the token is appended; a nonempty final buffer is flushed
unconditionally at end of input. -/
def specAccum (isCn : Bool) (maxLineLen idealLen : ℕ) : String → List String → List String
  | buffer, [] => if buffer = "" then [] else [buffer]
  | buffer, tok :: rest =>
    if buffer = "" then specAccum isCn maxLineLen idealLen tok rest
    else
      let separator : String := if isCn then "" else " "
      if maxLineLen < buffer.length + separator.length + tok.length then
        buffer :: specAccum isCn maxLineLen idealLen tok rest
      else if buffer.length < MIN_MERGE_LEN then
        specAccum isCn maxLineLen idealLen (buffer ++ separator ++ tok) rest
      else if endsWithTerminal buffer ∨ idealLen ≤ buffer.length then
        buffer :: specAccum isCn maxLineLen idealLen tok rest
      else
        specAccum isCn maxLineLen idealLen (buffer ++ separator ++ tok) rest

theorem accum_spec_general (isCn : Bool) (maxLineLen idealLen : ℕ) :
    ∀ (chunks : List String) (lines : List String) (buffer : String),
      (if (List.foldl (accumStep isCn maxLineLen idealLen) (lines, buffer) chunks).2 = ""
        then (List.foldl (accumStep isCn maxLineLen idealLen) (lines, buffer) chunks).1
        else (List.foldl (accumStep isCn maxLineLen idealLen) (lines, buffer) chunks).1
          ++ [(List.foldl (accumStep isCn maxLineLen idealLen) (lines, buffer) chunks).2])
      = lines ++ specAccum isCn maxLineLen idealLen buffer chunks := by
  intro chunks
  induction chunks with
  | nil =>
    intro lines buffer
    by_cases hb : buffer = ""
    · simp [specAccum, hb]
    · simp [specAccum, hb]
  | cons tok rest ih =>
    intro lines buffer
    set separator : String := if isCn then "" else " " with hsep
    have hstep : List.foldl (accumStep isCn maxLineLen idealLen) (lines, buffer)
        (tok :: rest)
        = List.foldl (accumStep isCn maxLineLen idealLen)
            (accumStep isCn maxLineLen idealLen (lines, buffer) tok) rest := rfl
    rw [hstep]
    by_cases hb : buffer = ""
    · have h1 : accumStep isCn maxLineLen idealLen (lines, buffer) tok
          = (lines, tok) := by simp [accumStep, hb]
      have h2 : specAccum isCn maxLineLen idealLen buffer (tok :: rest)
          = specAccum isCn maxLineLen idealLen tok rest := by
        rw [specAccum, if_pos hb]
      rw [h1, h2]
      exact ih lines tok
    · by_cases hmax : maxLineLen < buffer.length + separator.length + tok.length
      · have h1 : accumStep isCn maxLineLen idealLen (lines, buffer) tok
            = (lines ++ [buffer], tok) := by simp [accumStep, hb, ← hsep, hmax]
        have h2 : specAccum isCn maxLineLen idealLen buffer (tok :: rest)
            = buffer :: specAccum isCn maxLineLen idealLen tok rest := by
          rw [specAccum, if_neg hb]
          simp [← hsep, hmax]
        rw [h1, h2, ih (lines ++ [buffer]) tok, List.append_assoc]
        rfl
      · by_cases hmin : buffer.length < MIN_MERGE_LEN
        · have h1 : accumStep isCn maxLineLen idealLen (lines, buffer) tok
              = (lines, buffer ++ separator ++ tok) := by
            simp [accumStep, hb, ← hsep, hmax, hmin]
          have h2 : specAccum isCn maxLineLen idealLen buffer (tok :: rest)
              = specAccum isCn maxLineLen idealLen (buffer ++ separator ++ tok) rest := by
            rw [specAccum, if_neg hb]
            simp [← hsep, hmax, hmin]
          rw [h1, h2]
          exact ih lines (buffer ++ separator ++ tok)
        · by_cases hterm : endsWithTerminal buffer ∨ idealLen ≤ buffer.length
          · have h1 : accumStep isCn maxLineLen idealLen (lines, buffer) tok
                = (lines ++ [buffer], tok) := by
              simp [accumStep, hb, ← hsep, hmax, hmin, hterm]
            have h2 : specAccum isCn maxLineLen idealLen buffer (tok :: rest)
                = buffer :: specAccum isCn maxLineLen idealLen tok rest := by
              rw [specAccum, if_neg hb]
              simp [← hsep, hmax, hmin, hterm]
            rw [h1, h2, ih (lines ++ [buffer]) tok, List.append_assoc]
            rfl
          · have h1 : accumStep isCn maxLineLen idealLen (lines, buffer) tok
                = (lines, buffer ++ separator ++ tok) := by
              simp [accumStep, hb, ← hsep, hmax, hmin, hterm]
            have h2 : specAccum isCn maxLineLen idealLen buffer (tok :: rest)
                = specAccum isCn maxLineLen idealLen (buffer ++ separator ++ tok) rest := by
              rw [specAccum, if_neg hb]
              simp [← hsep, hmax, hmin, hterm]
            rw [h1, h2]
            exact ih lines (buffer ++ separator ++ tok)

/-- Claim C6 — Greedy accumulation decision order: the source's
accumulator loop (a fold with a lines/buffer state) coincides, on every
token sequence and every threshold configuration, with the step-by-step
priority procedure (a)-(e) stated by the spec, including the
unconditional flush of a nonempty final buffer. -/
theorem greedy_decision_order (isCn : Bool) (maxLineLen idealLen : ℕ)
    (chunks : List String) :
    accumulate isCn maxLineLen idealLen chunks
      = specAccum isCn maxLineLen idealLen "" chunks := by
  have := accum_spec_general isCn maxLineLen idealLen chunks [] ""
  simpa [accumulate] using this

end MediaCaptions

namespace MediaCaptions

/-- The merged line the global pass produces from two adjacent lines:
combined time interval, concatenated text (no separator when either side
is dense script). -/
def mergeTwo (current next : RawSegment) : RawSegment :=
  let separator : String :=
    if isChinese current.text || isChinese next.text then "" else " "
  ⟨current.start, next.stop, current.text ++ separator ++ next.text⟩

/-- The merge test of the global pass: the pair joined with the
applicable separator stays within the applicable cap (`CN_MAX` when
either side is dense script, else `maxChars`) and the current line does
not end in sentence-terminal punctuation. -/
def mergeCond (maxChars : ℕ) (current next : RawSegment) : Prop :=
  let isAnyCn := isChinese current.text || isChinese next.text
  let limit : ℕ := if isAnyCn then CN_MAX else maxChars
  let separator : String := if isAnyCn then "" else " "
  current.text.length + separator.length + next.text.length ≤ limit
    ∧ ¬ endsWithTerminal current.text

instance (maxChars : ℕ) (current next : RawSegment) :
    Decidable (mergeCond maxChars current next) :=
  inferInstanceAs (Decidable (_ ∧ _))

/-- The post-processing pass of `smartSplit` (global orphan merge): walk
the produced lines left to right, skip empty-text entries, and merge the
next line into the current one (extending the end time and concatenating
text) when `mergeCond` holds; a merged pair is consumed whole, so a line
is extended at most once per pass. -/
def globalMerge (maxChars : ℕ) : List RawSegment → List RawSegment
  | [] => []
  | [current] => if current.text = "" then [] else [current]
  | current :: next :: rest2 =>
    if current.text = "" then globalMerge maxChars (next :: rest2)
    else if mergeCond maxChars current next then
      mergeTwo current next :: globalMerge maxChars rest2
    else
      current :: globalMerge maxChars (next :: rest2)

/-- `smartSplit`: per-segment line breaking with interpolated timestamps,
then the global orphan merge over the concatenated results. -/
def smartSplit (maxChars : ℕ) (segments : List RawSegment) : List RawSegment :=
  globalMerge maxChars (segments.flatMap (smartSplitSeg maxChars))

/-- The pure post-processing of the server's `transcribeSegment`: shift
every raw Whisper segment by the chunk's start offset, trim its text, and
run `smartSplit` with the 42-character cap. -/
def transcribeSegmentPost (startTimeOffset : ℚ) (whisperSegments : List RawSegment) :
    List RawSegment :=
  smartSplit 42 (whisperSegments.map (offsetSeg startTimeOffset))

theorem globalMerge_cons_cons (maxChars : ℕ) (a b : RawSegment)
    (rest2 : List RawSegment) (ht : ¬ a.text = "") :
    globalMerge maxChars (a :: b :: rest2) =
      if mergeCond maxChars a b then
        mergeTwo a b :: globalMerge maxChars rest2
      else
        a :: globalMerge maxChars (b :: rest2) := by
  rw [globalMerge, if_neg ht]

end MediaCaptions

namespace MediaCaptions

theorem globalMerge_span_aux (maxChars : ℕ) :
    ∀ (n : ℕ) (lines : List RawSegment), lines.length ≤ n → lines ≠ [] →
      (∀ l ∈ lines, l.text ≠ "") →
      globalMerge maxChars lines ≠ []
      ∧ (globalMerge maxChars lines).head?.map RawSegment.start
          = lines.head?.map RawSegment.start
      ∧ (globalMerge maxChars lines).getLast?.map RawSegment.stop
          = lines.getLast?.map RawSegment.stop
      ∧ (globalMerge maxChars lines).length ≤ lines.length
      ∧ (∀ o ∈ globalMerge maxChars lines,
          o ∈ lines ∨ ∃ i a b, lines[i]? = some a ∧ lines[i + 1]? = some b
            ∧ o = mergeTwo a b) := by
  intro n
  induction n with
  | zero =>
    intro lines hlen hne _
    cases lines with
    | nil => exact absurd rfl hne
    | cons a t => simp at hlen
  | succ n ih =>
    intro lines hlen hne htext
    cases lines with
    | nil => exact absurd rfl hne
    | cons a tail =>
      have hta : ¬ a.text = "" := htext a (List.mem_cons_self _ _)
      cases tail with
      | nil =>
        have hg : globalMerge maxChars [a] = [a] := by
          rw [globalMerge, if_neg hta]
        refine ⟨by simp [hg], by simp [hg], by simp [hg], by simp [hg], ?_⟩
        intro o ho
        rw [hg] at ho
        exact Or.inl ho
      | cons b rest2 =>
        by_cases hm : mergeCond maxChars a b
        · have hg : globalMerge maxChars (a :: b :: rest2)
              = mergeTwo a b :: globalMerge maxChars rest2 := by
            rw [globalMerge_cons_cons maxChars a b rest2 hta, if_pos hm]
          cases rest2 with
          | nil =>
            have hgm : globalMerge maxChars ([] : List RawSegment) = [] := rfl
            have hg2 : globalMerge maxChars [a, b] = [mergeTwo a b] := by
              rw [hg, hgm]
            refine ⟨by simp [hg2], ?_, ?_, ?_, ?_⟩
            · simp [hg2, mergeTwo]
            · simp [hg2, mergeTwo, List.getLast?_cons]
            · simp [hg2]
            · intro o ho
              rw [hg2] at ho
              have : o = mergeTwo a b := List.mem_singleton.mp ho
              exact Or.inr ⟨0, a, b, rfl, rfl, this⟩
          | cons c rest3 =>
            have hlen2 : (c :: rest3).length ≤ n := by
              simp only [List.length_cons] at hlen ⊢
              omega
            have htext2 : ∀ l ∈ c :: rest3, l.text ≠ "" := fun l hl =>
              htext l (List.mem_cons_of_mem _ (List.mem_cons_of_mem _ hl))
            have ihr := ih (c :: rest3) hlen2 (by simp) htext2
            refine ⟨by simp [hg], ?_, ?_, ?_, ?_⟩
            · simp [hg, mergeTwo]
            · rw [hg, getLast_cons_ne ihr.1,
                getLast_cons_ne (L := b :: c :: rest3) (by simp),
                getLast_cons_ne (L := c :: rest3) (by simp)]
              exact ihr.2.2.1
            · rw [hg]
              simp only [List.length_cons]
              have := ihr.2.2.2.1
              simp only [List.length_cons] at this
              omega
            · intro o ho
              rw [hg, List.mem_cons] at ho
              rcases ho with ho | ho
              · exact Or.inr ⟨0, a, b, rfl, rfl, ho⟩
              · rcases ihr.2.2.2.2 o ho with hin | ⟨i, x, y, h1, h2, h3⟩
                · exact Or.inl
                    (List.mem_cons_of_mem _ (List.mem_cons_of_mem _ hin))
                · refine Or.inr ⟨i + 2, x, y, ?_, ?_, h3⟩
                  · simpa using h1
                  · simpa using h2
        · have hg : globalMerge maxChars (a :: b :: rest2)
              = a :: globalMerge maxChars (b :: rest2) := by
            rw [globalMerge_cons_cons maxChars a b rest2 hta, if_neg hm]
          have hlen2 : (b :: rest2).length ≤ n := by
            simp only [List.length_cons] at hlen ⊢
            omega
          have htext2 : ∀ l ∈ b :: rest2, l.text ≠ "" := fun l hl =>
            htext l (List.mem_cons_of_mem _ hl)
          have ihr := ih (b :: rest2) hlen2 (by simp) htext2
          refine ⟨by simp [hg], by simp [hg], ?_, ?_, ?_⟩
          · rw [hg, getLast_cons_ne ihr.1,
              getLast_cons_ne (L := b :: rest2) (by simp)]
            exact ihr.2.2.1
          · rw [hg]
            simp only [List.length_cons]
            exact Nat.succ_le_succ ihr.2.2.2.1
          · intro o ho
            rw [hg, List.mem_cons] at ho
            rcases ho with ho | ho
            · exact Or.inl (ho ▸ List.mem_cons_self _ _)
            · rcases ihr.2.2.2.2 o ho with hin | ⟨i, x, y, h1, h2, h3⟩
              · exact Or.inl (List.mem_cons_of_mem _ hin)
              · refine Or.inr ⟨i + 1, x, y, ?_, ?_, h3⟩
                · simpa using h1
                · simpa using h2

/-- Claim C10 — Orphan merge preserves the outer time span: on a
non-empty line list with non-empty texts, the global merge pass returns
a non-empty list whose first element starts where the input's first
element starts and whose last element ends where the input's last
element ends; the output is no longer than the input, and each output
element is either an input element or the merge (`mergeTwo`: combined
time interval, concatenated text) of exactly two consecutive input
elements. -/
theorem orphan_merge_span (maxChars : ℕ) (lines : List RawSegment)
    (hne : lines ≠ []) (htext : ∀ l ∈ lines, l.text ≠ "") :
    globalMerge maxChars lines ≠ []
    ∧ (globalMerge maxChars lines).head?.map RawSegment.start
        = lines.head?.map RawSegment.start
    ∧ (globalMerge maxChars lines).getLast?.map RawSegment.stop
        = lines.getLast?.map RawSegment.stop
    ∧ (globalMerge maxChars lines).length ≤ lines.length
    ∧ (∀ o ∈ globalMerge maxChars lines,
        o ∈ lines ∨ ∃ i a b, lines[i]? = some a ∧ lines[i + 1]? = some b
          ∧ o = mergeTwo a b) :=
  globalMerge_span_aux maxChars lines.length lines (Nat.le_refl _) hne htext

/-- Witness for C10 on a concrete two-line input (the pair merges, the
span `[0, 2]` is preserved). -/
theorem orphan_merge_span_witness :
    globalMerge 42 [⟨0, 1, "ab"⟩, ⟨1, 2, "cd"⟩] ≠ []
    ∧ (globalMerge 42 [⟨0, 1, "ab"⟩, ⟨1, 2, "cd"⟩]).head?.map RawSegment.start
        = ([⟨0, 1, "ab"⟩, ⟨1, 2, "cd"⟩] : List RawSegment).head?.map RawSegment.start
    ∧ (globalMerge 42 [⟨0, 1, "ab"⟩, ⟨1, 2, "cd"⟩]).getLast?.map RawSegment.stop
        = ([⟨0, 1, "ab"⟩, ⟨1, 2, "cd"⟩] : List RawSegment).getLast?.map RawSegment.stop
    ∧ (globalMerge 42 [⟨0, 1, "ab"⟩, ⟨1, 2, "cd"⟩]).length
        ≤ ([⟨0, 1, "ab"⟩, ⟨1, 2, "cd"⟩] : List RawSegment).length
    ∧ (∀ o ∈ globalMerge 42 [⟨0, 1, "ab"⟩, ⟨1, 2, "cd"⟩],
        o ∈ ([⟨0, 1, "ab"⟩, ⟨1, 2, "cd"⟩] : List RawSegment)
          ∨ ∃ i a b, ([⟨0, 1, "ab"⟩, ⟨1, 2, "cd"⟩] : List RawSegment)[i]? = some a
            ∧ ([⟨0, 1, "ab"⟩, ⟨1, 2, "cd"⟩] : List RawSegment)[i + 1]? = some b
            ∧ o = mergeTwo a b) :=
  orphan_merge_span 42 [⟨0, 1, "ab"⟩, ⟨1, 2, "cd"⟩] (by decide) (by decide)

end MediaCaptions

namespace MediaCaptions

/-- `BATCH_SIZE` of `translateSegments`. -/
def BATCH_SIZE : ℕ := 5

/-- `segments.slice(batchIndex * BATCH_SIZE, min(start + BATCH_SIZE, length))`. -/
def batchOf (segments : List CaptionSegment) (b : ℕ) : List CaptionSegment :=
  (segments.drop (BATCH_SIZE * b)).take BATCH_SIZE

/-- `translations.find(r => r.id === i)`, applied to one segment of a
batch: the matching record's trimmed text, or the segment's own text
when no record matches. -/
def translatedTextFor (seg : CaptionSegment) (i : ℕ)
    (translations : List (ℕ × String)) : String :=
  match translations.find? fun r => r.1 == i with
  | some r => trimStr r.2
  | none => seg.text

/-- The write-back loop of `translateBatch`:
`translatedSegments[globalIndex] = { ...seg, text: translatedText }` for
each segment of the batch, `k` the global index and `i` the index within
the batch. -/
def writeBatch (translations : List (ℕ × String)) :
    ℕ → ℕ → List CaptionSegment → List CaptionSegment → List CaptionSegment
  | _, _, [], acc => acc
  | k, i, seg :: batchRest, acc =>
    writeBatch translations (k + 1) (i + 1) batchRest
      (acc.set k { seg with text := translatedTextFor seg i translations })

/-- One `translateBatch(batchIndex)` call, given the parsed
`translations` array of its chat response. -/
def applyBatch (segments : List CaptionSegment) (translations : List (ℕ × String))
    (b : ℕ) (acc : List CaptionSegment) : List CaptionSegment :=
  writeBatch translations (BATCH_SIZE * b) 0 (batchOf segments b) acc

/-- `translateSegments` of `src/services/openaiService.ts`, abstracted
over the per-batch parsed responses: empty input returns `[]`; otherwise
`translatedSegments = [...segments]` is updated batch by batch
(`Math.ceil(length / BATCH_SIZE)` batches). -/
def translateSegments (segments : List CaptionSegment)
    (responses : ℕ → List (ℕ × String)) : List CaptionSegment :=
  if segments.length = 0 then []
  else
    (List.range ((segments.length + BATCH_SIZE - 1) / BATCH_SIZE)).foldl
      (fun acc b => applyBatch segments (responses b) b acc) segments

/-- The translation-invariant part of a caption: id and both
timestamps. -/
def capShape (c : CaptionSegment) : ℕ × ℚ × ℚ := (c.id, c.startTime, c.endTime)

theorem set_getElem_self {α : Type} :
    ∀ (l : List α) (k : ℕ) (v : α), l[k]? = some v → l.set k v = l := by
  intro l
  induction l with
  | nil => intro k v h; simp at h
  | cons x t ih =>
    intro k v h
    cases k with
    | zero =>
      simp only [List.getElem?_cons_zero] at h
      injection h with h
      rw [List.set]
      rw [h]
    | succ k2 =>
      rw [List.getElem?_cons_succ] at h
      rw [List.set]
      rw [ih k2 v h]

theorem set_preserves_shapes {segments : List CaptionSegment} :
    ∀ (acc : List CaptionSegment) (k : ℕ) (c s : CaptionSegment),
      acc.map capShape = segments.map capShape → segments[k]? = some s →
      capShape c = capShape s →
      (acc.set k c).map capShape = segments.map capShape := by
  intro acc k c s hmap hk hshape
  rw [List.map_set, hmap]
  apply set_getElem_self
  rw [List.getElem?_map, hk]
  rw [hshape]
  rfl

theorem writeBatch_preserves_shapes {segments : List CaptionSegment}
    (translations : List (ℕ × String)) :
    ∀ (batch : List CaptionSegment) (k i : ℕ) (acc : List CaptionSegment),
      (∀ m, m < batch.length → batch[m]? = segments[k + m]?) →
      acc.map capShape = segments.map capShape →
      (writeBatch translations k i batch acc).map capShape = segments.map capShape := by
  intro batch
  induction batch with
  | nil => intro k i acc _ hmap; exact hmap
  | cons seg batchRest ih =>
    intro k i acc hidx hmap
    rw [writeBatch]
    apply ih (k + 1) (i + 1)
    · intro m hm
      have := hidx (m + 1) (by simpa using Nat.succ_lt_succ hm)
      rw [List.getElem?_cons_succ] at this
      rw [this]
      congr 1
      omega
    · have h0 := hidx 0 (by simp)
      rw [List.getElem?_cons_zero] at h0
      exact set_preserves_shapes acc k _ seg hmap
        (by rw [show k = k + 0 from (Nat.add_zero k).symm, ← h0]) rfl

theorem batchOf_getElem (segments : List CaptionSegment) (b m : ℕ)
    (hm : m < (batchOf segments b).length) :
    (batchOf segments b)[m]? = segments[BATCH_SIZE * b + m]? := by
  unfold batchOf at hm ⊢
  have hm5 : m < BATCH_SIZE := lt_of_lt_of_le hm (by simpa using List.length_take_le _ _)
  rw [List.getElem?_take, if_pos hm5, List.getElem?_drop]

theorem foldl_applyBatch_preserves (segments : List CaptionSegment)
    (responses : ℕ → List (ℕ × String)) :
    ∀ (bs : List ℕ) (acc : List CaptionSegment),
      acc.map capShape = segments.map capShape →
      (bs.foldl (fun acc b => applyBatch segments (responses b) b acc) acc).map capShape
        = segments.map capShape := by
  intro bs
  induction bs with
  | nil => intro acc hmap; exact hmap
  | cons b rest ih =>
    intro acc hmap
    apply ih
    exact writeBatch_preserves_shapes (responses b) (batchOf segments b) _ 0 acc
      (fun m hm => batchOf_getElem segments b m hm) hmap

/-- Claim C9 — Translation is a text-only transformation: for every
segment list and every family of parsed batch responses,
`translateSegments` returns a list of the same length whose element `i`
keeps the id, startTime and endTime of input element `i` (only the text
may change), and the empty input yields the empty list. -/
theorem translate_frame (segments : List CaptionSegment)
    (responses : ℕ → List (ℕ × String)) :
    (translateSegments segments responses).map capShape = segments.map capShape
    ∧ translateSegments [] responses = [] := by
  constructor
  · unfold translateSegments
    by_cases h : segments.length = 0
    · rw [if_pos h]
      have : segments = [] := List.eq_nil_of_length_eq_zero h
      rw [this]
    · rw [if_neg h]
      exact foldl_applyBatch_preserves segments responses _ segments rfl
  · rfl

end MediaCaptions

namespace MediaCaptions

/-- The terminal observable state of one `generateCaptionsStream` run:
the accumulated captions, the final reported progress, and the terminal
error of the run's promise (`none` when it resolves). -/
structure RunResult where
  captions : List CaptionSegment
  progress : ℕ
  terminalError : Option String
deriving DecidableEq

/-- What one chunk task contributes to the accumulated list, in
completion order: the task body is wrapped in `try { ... } catch
(error) { console.error(...) }`, so a failed STT call leaves the state
untouched (the error is only logged), while a successful one runs
`addAndSortCaptions`. -/
def streamStep (state : List CaptionSegment)
    (outcome : Except String (List CaptionSegment)) : List CaptionSegment :=
  match outcome with
  | .error _ => state
  | .ok newCaptions => (addAndSortCaptions state newCaptions).1

/-- The large-file path of `generateCaptionsStream`, abstracted over the
per-chunk STT outcomes in completion order: every task is awaited
(`Promise.all`), per-chunk errors are swallowed by the task's own
`catch`, and after the pool drains the terminal `onProgress` reports
progress 100; no chunk error reaches the run's promise. -/
def generateCaptionsRun (outcomes : List (Except String (List CaptionSegment))) :
    RunResult :=
  { captions := outcomes.foldl streamStep []
    progress := 100
    terminalError := none }

/-- Chunk outcomes that succeeded. -/
def isOkOutcome : Except String (List CaptionSegment) → Bool
  | .ok _ => true
  | .error _ => false

theorem foldl_streamStep_filter (outcomes : List (Except String (List CaptionSegment))) :
    ∀ state, outcomes.foldl streamStep state
      = (outcomes.filter isOkOutcome).foldl streamStep state := by
  induction outcomes with
  | nil => intro state; rfl
  | cons o rest ih =>
    intro state
    cases o with
    | error e =>
      have h1 : List.foldl streamStep state (Except.error e :: rest)
          = List.foldl streamStep state rest := rfl
      have h2 : (Except.error e :: rest).filter isOkOutcome
          = rest.filter isOkOutcome := rfl
      rw [h1, h2]
      exact ih state
    | ok segs =>
      have h1 : List.foldl streamStep state (Except.ok segs :: rest)
          = List.foldl streamStep (streamStep state (Except.ok segs)) rest := rfl
      have h2 : (Except.ok segs :: rest).filter isOkOutcome
          = Except.ok segs :: rest.filter isOkOutcome := rfl
      rw [h1, h2]
      exact ih _

/-- Claim C7 — Chunk failure is non-fatal and contributes nothing: in
every run with at least one failed chunk, the run still terminates with
progress 100 and no terminal error, and its accumulated caption list is
exactly the one produced by the successful chunks alone (a failed chunk
contributes zero caption lines and does not stop later chunks from being
assembled). -/
theorem chunk_failure_nonfatal (outcomes : List (Except String (List CaptionSegment)))
    (hfail : ∃ e, Except.error e ∈ outcomes) :
    (generateCaptionsRun outcomes).progress = 100
    ∧ (generateCaptionsRun outcomes).terminalError = none
    ∧ generateCaptionsRun outcomes
        = generateCaptionsRun (outcomes.filter isOkOutcome) := by
  refine ⟨rfl, rfl, ?_⟩
  unfold generateCaptionsRun
  rw [foldl_streamStep_filter outcomes []]

/-- Witness for C7: a run of one successful and one failed chunk. -/
theorem chunk_failure_nonfatal_witness :
    (generateCaptionsRun [Except.ok [capA], Except.error "network"]).progress = 100
    ∧ (generateCaptionsRun [Except.ok [capA], Except.error "network"]).terminalError
        = none
    ∧ generateCaptionsRun [Except.ok [capA], Except.error "network"]
        = generateCaptionsRun
            (([Except.ok [capA], Except.error "network"]).filter isOkOutcome) :=
  chunk_failure_nonfatal [Except.ok [capA], Except.error "network"]
    ⟨"network", by simp⟩

end MediaCaptions

namespace MediaCaptions

/-- `MAX_CONCURRENT_TRANSCRIPTIONS` — the dispatcher's concurrency cap. -/
def MAX_CONCURRENT_TRANSCRIPTIONS : ℕ := 3

/-- A task settling: its `finally` splices it out of `activeTasks`.  The
index is the scheduler's (adversarial) choice of which in-flight call
finishes; an out-of-range index removes nothing (a task that already
settled is no longer in the array). -/
def completeTask (pool : List ℕ) (pick : ℕ) : List ℕ :=
  pool.eraseIdx pick

/-- One admission of the `segmentAudioStream` callback: first any number
of tasks may have settled on their own (`spont`), then — if the pool is
still at the cap — `await Promise.race(activeTasks)` suspends until one
more in-flight call (any one, chosen by `racePick`) settles and is
spliced out, and only then is the new task pushed.  Returns the
intermediate pool states and the final pool. -/
def admitChunk (tid : ℕ) (spont : List ℕ) (racePick : ℕ) (pool : List ℕ) :
    List (List ℕ) × List ℕ :=
  let afterSpont := spont.foldl completeTask pool
  let afterWait :=
    if MAX_CONCURRENT_TRANSCRIPTIONS ≤ afterSpont.length then
      completeTask afterSpont (racePick % afterSpont.length)
    else afterSpont
  let afterPush := afterWait ++ [tid]
  ([afterSpont, afterWait, afterPush], afterPush)

/-- All pool states reached while admitting the remaining chunks, each
chunk paired with the scheduler's choices. -/
def dispatchAux : ℕ → List ℕ → List (List ℕ × ℕ) → List (List ℕ)
  | _, _, [] => []
  | tid, pool, (spont, racePick) :: rest =>
    (admitChunk tid spont racePick pool).1
      ++ dispatchAux (tid + 1) (admitChunk tid spont racePick pool).2 rest

/-- The dispatcher's trace of `activeTasks` states over a whole run,
starting from the empty pool. -/
def dispatchStates (oracle : List (List ℕ × ℕ)) : List (List ℕ) :=
  [] :: dispatchAux 0 [] oracle

theorem completeTask_length_of_lt {pool : List ℕ} {pick : ℕ}
    (h : pick < pool.length) :
    (completeTask pool pick).length = pool.length - 1 := by
  unfold completeTask
  rw [List.length_eraseIdx, if_pos h]

theorem completeTask_length_le (pool : List ℕ) (pick : ℕ) :
    (completeTask pool pick).length ≤ pool.length := by
  unfold completeTask
  rw [List.length_eraseIdx]
  by_cases h : pick < pool.length
  · rw [if_pos h]; omega
  · rw [if_neg h]

theorem foldl_completeTask_length_le (spont : List ℕ) :
    ∀ pool : List ℕ, (spont.foldl completeTask pool).length ≤ pool.length := by
  induction spont with
  | nil => intro pool; exact Nat.le_refl _
  | cons p rest ih =>
    intro pool
    exact Nat.le_trans (ih (completeTask pool p)) (completeTask_length_le pool p)

theorem admitChunk_invariant (tid : ℕ) (spont : List ℕ) (racePick : ℕ)
    (pool : List ℕ) (hpool : pool.length ≤ MAX_CONCURRENT_TRANSCRIPTIONS) :
    (∀ s ∈ (admitChunk tid spont racePick pool).1,
        s.length ≤ MAX_CONCURRENT_TRANSCRIPTIONS)
    ∧ (admitChunk tid spont racePick pool).2.length ≤ MAX_CONCURRENT_TRANSCRIPTIONS := by
  have hspont : (spont.foldl completeTask pool).length ≤ MAX_CONCURRENT_TRANSCRIPTIONS :=
    Nat.le_trans (foldl_completeTask_length_le spont pool) hpool
  set afterSpont := spont.foldl completeTask pool with hAS
  have hwait : (if MAX_CONCURRENT_TRANSCRIPTIONS ≤ afterSpont.length then
      completeTask afterSpont (racePick % afterSpont.length)
    else afterSpont).length < MAX_CONCURRENT_TRANSCRIPTIONS := by
    by_cases hfull : MAX_CONCURRENT_TRANSCRIPTIONS ≤ afterSpont.length
    · rw [if_pos hfull]
      have hlen : afterSpont.length = MAX_CONCURRENT_TRANSCRIPTIONS :=
        Nat.le_antisymm hspont hfull
      have hpos : 0 < afterSpont.length := by
        rw [hlen]; exact Nat.zero_lt_succ _
      have hin : racePick % afterSpont.length < afterSpont.length :=
        Nat.mod_lt _ hpos
      unfold completeTask
      rw [List.length_eraseIdx, if_pos hin, hlen]
      exact Nat.sub_lt (Nat.zero_lt_succ _) Nat.one_pos
    · rw [if_neg hfull]
      exact Nat.lt_of_not_le hfull
  refine ⟨?_, ?_⟩
  · intro s hs
    have : s = afterSpont
        ∨ s = (if MAX_CONCURRENT_TRANSCRIPTIONS ≤ afterSpont.length then
            completeTask afterSpont (racePick % afterSpont.length) else afterSpont)
        ∨ s = (if MAX_CONCURRENT_TRANSCRIPTIONS ≤ afterSpont.length then
            completeTask afterSpont (racePick % afterSpont.length) else afterSpont)
          ++ [tid] := by
      simpa [admitChunk, ← hAS] using hs
    rcases this with h | h | h
    · rw [h]; exact hspont
    · rw [h]; exact Nat.le_of_lt hwait
    · rw [h, List.length_append]
      simp only [List.length_cons, List.length_nil]
      omega
  · show ((if MAX_CONCURRENT_TRANSCRIPTIONS ≤ afterSpont.length then
        completeTask afterSpont (racePick % afterSpont.length) else afterSpont)
      ++ [tid]).length ≤ MAX_CONCURRENT_TRANSCRIPTIONS
    rw [List.length_append]
    simp only [List.length_cons, List.length_nil]
    omega

theorem dispatchAux_invariant (oracle : List (List ℕ × ℕ)) :
    ∀ (tid : ℕ) (pool : List ℕ), pool.length ≤ MAX_CONCURRENT_TRANSCRIPTIONS →
      ∀ s ∈ dispatchAux tid pool oracle, s.length ≤ MAX_CONCURRENT_TRANSCRIPTIONS := by
  induction oracle with
  | nil => intro tid pool _ s hs; simp [dispatchAux] at hs
  | cons step rest ih =>
    intro tid pool hpool s hs
    rw [dispatchAux] at hs
    rcases List.mem_append.mp hs with hs | hs
    · exact (admitChunk_invariant tid step.1 step.2 pool hpool).1 s hs
    · exact ih (tid + 1) _ (admitChunk_invariant tid step.1 step.2 pool hpool).2 s hs

/-- Claim C8 — Bounded concurrency: along every dispatcher trace (any
chunk count, any scheduler choices of which in-flight call settles when)
the `activeTasks` pool never holds more than
`MAX_CONCURRENT_TRANSCRIPTIONS = 3` tasks; and whenever admission finds
the pool at the cap, exactly one in-flight call — an arbitrary one, not
necessarily the oldest — is awaited and removed before the new task is
pushed, so a full admission leaves the pool size unchanged at the cap. -/
theorem bounded_concurrency (oracle : List (List ℕ × ℕ)) :
    (∀ s ∈ dispatchStates oracle, s.length ≤ MAX_CONCURRENT_TRANSCRIPTIONS)
    ∧ (∀ (tid : ℕ) (spont : List ℕ) (racePick : ℕ) (pool : List ℕ),
        pool.length ≤ MAX_CONCURRENT_TRANSCRIPTIONS →
        MAX_CONCURRENT_TRANSCRIPTIONS ≤ (spont.foldl completeTask pool).length →
        (admitChunk tid spont racePick pool).2.length
          = MAX_CONCURRENT_TRANSCRIPTIONS) := by
  constructor
  · intro s hs
    rw [dispatchStates, List.mem_cons] at hs
    rcases hs with hs | hs
    · rw [hs]; exact Nat.zero_le _
    · exact dispatchAux_invariant oracle 0 [] (Nat.zero_le _) s hs
  · intro tid spont racePick pool hpool hfull
    have hspont : (spont.foldl completeTask pool).length ≤ MAX_CONCURRENT_TRANSCRIPTIONS :=
      Nat.le_trans (foldl_completeTask_length_le spont pool) hpool
    have hlen : (spont.foldl completeTask pool).length = MAX_CONCURRENT_TRANSCRIPTIONS :=
      Nat.le_antisymm hspont hfull
    show ((if MAX_CONCURRENT_TRANSCRIPTIONS ≤ (spont.foldl completeTask pool).length then
        completeTask (spont.foldl completeTask pool)
          (racePick % (spont.foldl completeTask pool).length)
      else (spont.foldl completeTask pool)) ++ [tid]).length
      = MAX_CONCURRENT_TRANSCRIPTIONS
    have hpos : 0 < (spont.foldl completeTask pool).length := by
      rw [hlen]; exact Nat.zero_lt_succ _
    have hin : racePick % (spont.foldl completeTask pool).length
        < (spont.foldl completeTask pool).length := Nat.mod_lt _ hpos
    rw [if_pos hfull, List.length_append, completeTask_length_of_lt hin, hlen]
    rfl

end MediaCaptions
